import Mathlib

/-!
Verification development for the hopper hash router.

The definitions below are shallow embeddings of the TypeScript sources:

* `routeOf` embeds the `Router.Route` constructor of `src/Router.ts`
  (strip a single `#/` or `#` marker, one leading slash, one trailing slash,
  split off the query substring at the first `?`, split the path on `/`).
* `Proto.rank` embeds the prototype `rank` of the first class in `src/Router.ts`
  (lines 56-97), `Hopper.rank` embeds `#rank` of the main router class
  (lines 305-345), and `Legacy.rank` embeds `rank` of the router in the
  unnamed source file (part_000, lines 167-208).  They differ in the
  trailing-wildcard contribution (`user.length - i` vs `user.length - 1 - i`)
  and in whether the non-trailing wildcard branch continues the scan.
* `chooseBest` embeds `#chooseBest`, including the enumeration order of a
  JavaScript object literal: `for ... in` visits keys that are canonical
  array indices (all-digit strings such as `"404"`) first, in ascending
  numeric order, and only then the remaining keys in insertion order.
* `getUserRouteDetails` embeds `#getUserRouteDetails`.
* `handleHashChange` embeds the async `#handleHashChange` as a trace
  semantics: `await` points become sequencing, each handler invocation is
  recorded as a call `(key, phase, event)`, a handler outcome is supplied by
  an environment `run : String → Phase → Bool` (`false` = raises/rejects),
  and since the source has no try/catch a `false` outcome aborts the body:
  the result's `committed` field is `none` and `#currentRoute` keeps its old
  value.  `history.replaceState` is an external side effect and not modelled.

JavaScript string values that may be `undefined` (such as `user[i]`) are
modelled as `Option String`; JavaScript truthiness of a string (`!uc`) is
`none` or `some ""`.
-/

/-- One step of the regex replacement `hash.replace(/#\/|#/, '')`: remove the
first occurrence of `#/`, or failing that of `#`, anywhere in the string. -/
def removeFirstHash : List Char → List Char
  | [] => []
  | c :: rest =>
    if c = '#' then
      match rest with
      | '/' :: rest2 => rest2
      | _ => rest
    else c :: removeFirstHash rest

/-- Helper for `splitOnChar`: prepend a character to the first piece. -/
def consHead (c : Char) : List (List Char) → List (List Char)
  | [] => [[c]]
  | piece :: more => (c :: piece) :: more

/-- JavaScript `s.split(sep)` for a single-character separator: keeps empty
pieces, and the empty string splits into one empty piece. -/
def splitOnChar (sep : Char) : List Char → List (List Char)
  | [] => [[]]
  | c :: rest =>
    if c = sep then [] :: splitOnChar sep rest
    else consHead c (splitOnChar sep rest)

/-- Rejoin pieces with a separator (used to model splitting on the first `=`
of a query pair: the value keeps any later `=`). -/
def joinChar (sep : Char) : List (List Char) → List Char
  | [] => []
  | [p] => p
  | p :: rest => p ++ sep :: joinChar sep rest

/-- Form-encoded decoding of `+` as a space. -/
def decodePlus (l : List Char) : List Char :=
  l.map (fun c => if c = '+' then ' ' else c)

/-- JavaScript object assignment `obj[k] = v` on an insertion-ordered
association list: an existing key keeps its position and gets the new value,
a new key is appended. -/
def objSet (l : List (String × β)) (k : String) (v : β) : List (String × β) :=
  if l.any (fun p => p.1 == k) then
    l.map (fun p => if p.1 == k then (k, v) else p)
  else l ++ [(k, v)]

/-- JavaScript property read `obj[k]`: `undefined` is `none`. -/
def objGet (l : List (String × β)) (k : String) : Option β :=
  (l.find? (fun p => p.1 == k)).map Prod.snd

/-- JavaScript `delete obj[k]`. -/
def objDelete (l : List (String × β)) (k : String) : List (String × β) :=
  l.filter (fun p => p.1 != k)

/-- Modelled from the spec: the query substring is decoded with standard
form-encoded semantics (`URLSearchParams` plus `Object.fromEntries`, platform
builtins that are not part of this repository's sources): split on `&`,
ignore empty pieces, split each piece at its first `=` into name and value
(a missing `=` gives the empty value), decode `+` as a space (percent-escape
decoding is not modelled; no claim depends on it), and on duplicate names the
last occurrence wins. -/
def parseQuery (qs : List Char) : List (String × String) :=
  let pieces := (splitOnChar '&' qs).filter (fun p => !(p == []))
  let pairs := pieces.map (fun p =>
    match splitOnChar '=' p with
    | [] => (String.mk (decodePlus p), "")
    | [n] => (String.mk (decodePlus n), "")
    | n :: v :: rest =>
        (String.mk (decodePlus n), String.mk (decodePlus (joinChar '=' (v :: rest)))))
  pairs.foldl (fun acc p => objSet acc p.1 p.2) []

/-- The value computed by the `Router.Route` constructor. -/
structure RouteData where
  string : String
  segments : List String
  queries : List (String × String)
deriving DecidableEq

/-- Embedding of the `Router.Route` constructor:
`noHash` removes the first `#/` or `#`, `noLead` strips one leading slash,
`noTrail` strips one trailing slash, the result is split at the first `?`
into the path and the query substring (an empty query substring is falsy in
JavaScript and yields no queries), and the path is split on `/`. -/
def routeOf (hash : String) : RouteData :=
  let noHash := removeFirstHash hash.data
  let noLead := if noHash.head? = some '/' then noHash.tail else noHash
  let noTrail := if noLead.getLast? = some '/' then noLead.dropLast else noLead
  let parts := splitOnChar '?' noTrail
  let route := parts.headD []
  let queries := match parts[1]? with
    | none => []
    | some [] => []
    | some qs => parseQuery qs
  { string := String.mk route
    segments := (splitOnChar '/' route).map String.mk
    queries := queries }

namespace Proto

/-- The scoring loop of the prototype `rank` (first class of `src/Router.ts`,
lines 56-97), one recursive step per route index `i`; `score` is the
accumulator.  Branches in source order: exact match (+3, continue), parameter
match (+2, continue), trailing wildcard (reject on a missing or empty request
segment, else add `(user.length - i) * 1` and break), non-trailing wildcard
(+1, continue), otherwise return 0. -/
def rankGo (user : List String) : List String → Nat → Nat → Nat
  | [], _, score => score
  | rc :: rest, i, score =>
    let uc := user[i]?
    if uc = some rc then
      rankGo user rest (i + 1) (score + 3)
    else if rc ≠ "" ∧ rc.data.head? = some ':' then
      rankGo user rest (i + 1) (score + 2)
    else if rest = [] ∧ rc = "*" then
      match uc with
      | none => 0
      | some u => if u = "" then 0 else score + (user.length - i) * 1
    else if rc = "*" then
      rankGo user rest (i + 1) (score + 1)
    else 0

/-- `rank(route, user)` of the prototype router. -/
def rank (route user : List String) : Nat :=
  rankGo user route 0 0

end Proto

namespace Hopper

/-- The scoring loop of `#rank` of the main router (`src/Router.ts` lines
305-345).  It differs from `Proto.rankGo` in the trailing-wildcard length
(`user.length - 1 - i`) and in the non-trailing wildcard branch, which in the
source increments `score` but then falls through to `return 0` (there is no
`continue`), so its result is 0. -/
def rankGo (user : List String) : List String → Nat → Nat → Nat
  | [], _, score => score
  | rc :: rest, i, score =>
    let uc := user[i]?
    if uc = some rc then
      rankGo user rest (i + 1) (score + 3)
    else if rc ≠ "" ∧ rc.data.head? = some ':' then
      rankGo user rest (i + 1) (score + 2)
    else if rest = [] ∧ rc = "*" then
      match uc with
      | none => 0
      | some u => if u = "" then 0 else score + (user.length - 1 - i) * 1
    else if rc = "*" then
      0
    else 0

/-- `#rank(route, user)` of the main router. -/
def rank (route user : List String) : Nat :=
  rankGo user route 0 0

end Hopper

namespace Legacy

/-- The scoring loop of `rank` in the unnamed source (part_000, lines
167-208): trailing-wildcard length `user.length - 1 - i`, and the
non-trailing wildcard branch adds 1 and continues. -/
def rankGo (user : List String) : List String → Nat → Nat → Nat
  | [], _, score => score
  | rc :: rest, i, score =>
    let uc := user[i]?
    if uc = some rc then
      rankGo user rest (i + 1) (score + 3)
    else if rc ≠ "" ∧ rc.data.head? = some ':' then
      rankGo user rest (i + 1) (score + 2)
    else if rest = [] ∧ rc = "*" then
      match uc with
      | none => 0
      | some u => if u = "" then 0 else score + (user.length - 1 - i) * 1
    else if rc = "*" then
      rankGo user rest (i + 1) (score + 1)
    else 0

/-- `rank(route, user)` of the part_000 router. -/
def rank (route user : List String) : Nat :=
  rankGo user route 0 0

end Legacy

/-- A registry entry of the main router: the normalized route string, its
segments, and the two handlers (handlers are opaque to matching, so their
type is a parameter). -/
structure RouteEntry (α : Type) where
  string : String
  segments : List String
  beforeExit : α
  afterEnter : α
deriving DecidableEq

/-- Numeric value of an all-digit key. -/
def digitsVal (l : List Char) : Nat :=
  l.foldl (fun n c => n * 10 + (c.toNat - 48)) 0

/-- Whether a JavaScript object key is a canonical array index (an all-digit
string without a leading zero, below 2^32 - 1, such as `"404"`): such keys
are enumerated by `for ... in` before all other keys, in ascending numeric
order. -/
def isArrayIndexKey (s : String) : Bool :=
  match s.data with
  | [] => false
  | c :: cs =>
      (c :: cs).all (fun d => d.isDigit) &&
      (c != '0' || cs == []) &&
      decide (digitsVal (c :: cs) < 4294967295)

/-- Ascending insertion by numeric key value (array-index keys are distinct
numbers, so stability is irrelevant). -/
def insertIndexKey (p : String × β) : List (String × β) → List (String × β)
  | [] => [p]
  | q :: qs =>
      if digitsVal p.1.data ≤ digitsVal q.1.data then p :: q :: qs
      else q :: insertIndexKey p qs

/-- The `for (const route in this.#routes)` enumeration order of the registry
object: canonical array-index keys first in ascending numeric order, then the
remaining keys in insertion order. -/
def enumOrder (reg : List (String × β)) : List (String × β) :=
  (reg.filter (fun p => isArrayIndexKey p.1)).foldr insertIndexKey []
    ++ reg.filter (fun p => !isArrayIndexKey p.1)

/-- The loop of `#chooseBest`: `best` starts as `[0, '']` and is replaced
whenever an entry's rank is strictly greater. -/
def chooseBestGo (user : List String) :
    List (String × RouteEntry α) → Nat × String → Nat × String
  | [], best => best
  | (k, e) :: rest, best =>
      let r := Hopper.rank e.segments user
      chooseBestGo user rest (if best.1 < r then (r, k) else best)

/-- Embedding of `#chooseBest(user)`: scan the registry in object enumeration
order, keep the strictly greatest rank, and return the best key when the best
score is truthy (nonzero), else `undefined`. -/
def chooseBest (routes : List (String × RouteEntry α)) (user : List String) :
    Option String :=
  let best := chooseBestGo user (enumOrder routes) (0, "")
  if best.1 ≠ 0 then some best.2 else none

/-- Modelled from the spec's words (§4.4, claim C4): scan the registry
entries in insertion order computing each entry's rank, keep the entry with
the strictly greatest score seen so far (ties keep the earliest-seen entry),
and return the winning key if its score is positive, otherwise signal no
match.  Stated declaratively: the winner is the first entry attaining the
maximal score, returned only when that maximum is nonzero. -/
def chooseSpec (routes : List (String × RouteEntry α)) (user : List String) :
    Option String :=
  let scored := routes.map (fun p => (Hopper.rank p.2.segments user, p.1))
  let top := (scored.map Prod.fst).foldl Nat.max 0
  if top = 0 then none
  else (scored.find? (fun q => q.1 == top)).map Prod.snd

/-- The `#chooseBest` loop specialised to precomputed `(rank, key)` pairs,
used to relate `chooseBestGo` to `chooseSpec`. -/
def bestGo : List (Nat × String) → Nat × String → Nat × String
  | [], best => best
  | q :: rest, best => bestGo rest (if best.1 < q.1 then q else best)

/-- The result of `#getUserRouteDetails`: the extracted parameters (a record
built by successive assignments, values may be `undefined`) and the wildcard
captures (an array that may contain `undefined`). -/
structure RouteDetails where
  params : List (String × Option String)
  wildcards : List (Option String)
deriving DecidableEq

/-- The loop of `#getUserRouteDetails`, one recursive step per route index.
Branches in source order: a parameter segment assigns
`params[rc.substring(1)] = user[i]`; a trailing `*` (last index) appends
`user.slice(route.length - 1, user.length)`, which at this branch equals
`user.slice(i)`; a non-trailing `*` pushes `user[i]`; anything else
contributes nothing. -/
def detailsGo (user : List String) :
    List String → Nat → List (String × Option String) → List (Option String) →
    RouteDetails
  | [], _, params, wildcards => ⟨params, wildcards⟩
  | rc :: rest, i, params, wildcards =>
    if rc ≠ "" ∧ rc.data.head? = some ':' then
      detailsGo user rest (i + 1)
        (objSet params (String.mk rc.data.tail) (user[i]?)) wildcards
    else if rest = [] ∧ rc = "*" then
      detailsGo user rest (i + 1) params
        (wildcards ++ (user.drop i).map some)
    else if rc = "*" then
      detailsGo user rest (i + 1) params (wildcards ++ [user[i]?])
    else
      detailsGo user rest (i + 1) params wildcards

/-- Embedding of `#getUserRouteDetails(route, user)`. -/
def getUserRouteDetails (route user : List String) : RouteDetails :=
  detailsGo user route 0 [] []

/-- Modelled from the spec's words (§4.5, claim C8), without accumulators:
for each pattern index `i`, a `Parameter` segment `:name` binds
`params[name] = requestSegments[i]`, a non-trailing `Wildcard` appends
`requestSegments[i]` to `wildcards`, a `TrailingWildcard` at the last index
appends every request segment from `i` to the end and stops, and `Literal`
segments contribute nothing.  Returns the parameter assignments in scan order
and the wildcard captures. -/
def bindSpec (user : List String) :
    List String → Nat → List (String × Option String) × List (Option String)
  | [], _ => ([], [])
  | rc :: rest, i =>
    if rc ≠ "" ∧ rc.data.head? = some ':' then
      let r := bindSpec user rest (i + 1)
      ((String.mk rc.data.tail, user[i]?) :: r.1, r.2)
    else if rest = [] ∧ rc = "*" then
      ([], (user.drop i).map some)
    else if rc = "*" then
      let r := bindSpec user rest (i + 1)
      (r.1, user[i]? :: r.2)
    else
      bindSpec user rest (i + 1)

/-- The two handler phases of the navigation lifecycle. -/
inductive Phase where
  | beforeExit
  | afterEnter
deriving DecidableEq

/-- The `RouteChangeEvent` passed to every handler of a transition. -/
structure RouteChangeEvent where
  path : String
  params : List (String × Option String)
  wildcards : List (Option String)
  queries : List (String × String)
deriving DecidableEq

/-- The observable outcome of one `#handleHashChange` run: the handler
invocations in execution order, and the committed `#currentRoute` value
(`none` when an uncaught handler rejection aborted the body before the
assignment, leaving `#currentRoute` at its previous value). -/
structure TransitionResult where
  calls : List (String × Phase × RouteChangeEvent)
  committed : Option (Option String)
deriving DecidableEq

/-- JavaScript property access with a possibly `undefined` key:
`obj[k!]` where `k` may be `undefined` looks up the string `"undefined"`. -/
def keyOf : Option String → String
  | some k => k
  | none => "undefined"

/-- The segments passed to `#getUserRouteDetails`: `match ? match.segments : []`. -/
def segmentsOf : Option (RouteEntry α) → List String
  | some m => m.segments
  | none => []

/-- The part of `#handleHashChange` after the exit phase: enter the matched
route and commit `#currentRoute = matchingRoute`, or fall back to the `'404'`
entry (entering it when present) and commit `#currentRoute = '404'`.  Each
`await` that rejects aborts the body (`committed = none`). -/
def enterStage (routes : List (String × RouteEntry α)) (matchingRoute : Option String)
    (mtch : Option (RouteEntry α)) (exitCalls : List (String × Phase × RouteChangeEvent))
    (event : RouteChangeEvent) (run : String → Phase → Bool) : TransitionResult :=
  match mtch with
  | some _ =>
      ⟨exitCalls ++ [(keyOf matchingRoute, Phase.afterEnter, event)],
       if run (keyOf matchingRoute) Phase.afterEnter then some matchingRoute else none⟩
  | none =>
      match objGet routes "404" with
      | some _ =>
          ⟨exitCalls ++ [("404", Phase.afterEnter, event)],
           if run "404" Phase.afterEnter then some (some "404") else none⟩
      | none => ⟨exitCalls, some (some "404")⟩

/-- Embedding of the async `#handleHashChange(noLeave)`: normalize the
location hash, choose the best route, look up the matched and previous
entries (an `undefined` key reads property `"undefined"`), build the event,
and run exit then enter.  `run` gives each handler invocation's outcome;
`false` models a raised error or rejected promise, which the source does not
catch, so it aborts the body (`history.replaceState` is external and not
modelled). -/
def handleHashChange (routes : List (String × RouteEntry α)) (current : Option String)
    (locationHash : String) (noLeave : Bool) (run : String → Phase → Bool) :
    TransitionResult :=
  let entering := routeOf locationHash
  let matchingRoute := chooseBest routes entering.segments
  let mtch := objGet routes (keyOf matchingRoute)
  let lastMatch := objGet routes (keyOf current)
  let details := getUserRouteDetails (segmentsOf mtch) entering.segments
  let event : RouteChangeEvent :=
    ⟨entering.string, details.params, details.wildcards, entering.queries⟩
  let doExit := lastMatch.isSome && !noLeave
  let exitCalls :=
    if doExit then [(keyOf current, Phase.beforeExit, event)] else []
  if doExit && !run (keyOf current) Phase.beforeExit then
    ⟨exitCalls, none⟩
  else enterStage routes matchingRoute mtch exitCalls event run

/-- Embedding of `add(hash, handlers)`: compile the hash with `Router.Route`
and store the entry under the normalized string. -/
def addRoute (reg : List (String × RouteEntry α)) (hash : String) (bx ae : α) :
    List (String × RouteEntry α) :=
  objSet reg (routeOf hash).string
    ⟨(routeOf hash).string, (routeOf hash).segments, bx, ae⟩

/-- Embedding of `remove(hash)`: delete the raw argument string as a key. -/
def removeRoute (reg : List (String × RouteEntry α)) (hash : String) :
    List (String × RouteEntry α) :=
  objDelete reg hash


/-! ### Association-list lemmas for the registry object -/

theorem find?_map_objSet {β : Type} (k : String) (v : β) :
    ∀ l : List (String × β), l.any (fun p => p.1 == k) = true →
      (l.map (fun p => if p.1 == k then (k, v) else p)).find? (fun p => p.1 == k)
        = some (k, v) := by
  intro l
  induction l with
  | nil => intro h; simp at h
  | cons p rest ih =>
    intro h
    by_cases hp : p.1 = k
    · simp [hp]
    · have hr : rest.any (fun p => p.1 == k) = true := by
        simp only [List.any_cons] at h
        simpa [hp] using h
      rw [List.map_cons, if_neg (show ¬((p.1 == k) = true) by simp [hp]),
        List.find?_cons_of_neg _ (by simp [hp])]
      exact ih hr

theorem find?_append_new {β : Type} (k : String) (v : β) :
    ∀ l : List (String × β), l.any (fun p => p.1 == k) = false →
      (l ++ [(k, v)]).find? (fun p => p.1 == k) = some (k, v) := by
  intro l
  induction l with
  | nil => intro _; simp
  | cons p rest ih =>
    intro h
    simp only [List.any_cons, Bool.or_eq_false_iff] at h
    rw [List.cons_append, List.find?_cons_of_neg _ (by simp [h.1])]
    exact ih h.2

theorem objGet_objSet_self {β : Type} (l : List (String × β)) (k : String) (v : β) :
    objGet (objSet l k v) k = some v := by
  by_cases h : l.any (fun p => p.1 == k)
  · simp only [objSet, if_pos h, objGet, find?_map_objSet k v l h, Option.map_some']
  · have h' : l.any (fun p => p.1 == k) = false := by
      cases hx : l.any (fun p => p.1 == k) with
      | false => rfl
      | true => exact absurd hx h
    simp only [objSet, objGet]
    rw [if_neg h, find?_append_new k v l h', Option.map_some']

theorem objGet_objDelete_ne {β : Type} (l : List (String × β)) (s k : String)
    (h : k ≠ s) : objGet (objDelete l s) k = objGet l k := by
  induction l with
  | nil => rfl
  | cons p rest ih =>
    by_cases hp : p.1 = s
    · have hpk : (p.1 == k) = false := by
        simp [hp, Ne.symm h]
      simp only [objDelete, List.filter] at ih ⊢
      rw [show (p.1 != s) = false by simp [hp]]
      rw [ih]
      simp only [objGet, List.find?]
      rw [hpk]
    · simp only [objDelete, List.filter] at ih ⊢
      rw [show (p.1 != s) = true by simp [hp]]
      by_cases hpk : p.1 = k
      · simp [objGet, List.find?, hpk]
      · simp only [objGet, List.find?]
        rw [show (p.1 == k) = false by simp [hpk]]
        exact ih

/-- C10: a route string `s` registered via `add(s, handlers)` is stored under
the normalized form of `s` (hash marker, one leading slash, one trailing
slash, query substring stripped), while `remove(s)` deletes the key equal to
the raw argument string; so whenever the normalized form differs from `s`,
`add(s, handlers)` followed by `remove(s)` leaves the entry in the
registry. -/
theorem add_remove_key_mismatch {α : Type} (reg : List (String × RouteEntry α))
    (s : String) (bx ae : α) (h : (routeOf s).string ≠ s) :
    objGet (removeRoute (addRoute reg s bx ae) s) ((routeOf s).string)
      = some ⟨(routeOf s).string, (routeOf s).segments, bx, ae⟩ := by
  unfold removeRoute addRoute
  rw [objGet_objDelete_ne _ _ _ h]
  exact objGet_objSet_self ..

/-- Witness for C10 at the concrete route `"/user/"`, whose normalized form
is `"user"`. -/
theorem add_remove_key_mismatch_witness :
    (routeOf "/user/").string ≠ "/user/" ∧
    objGet (removeRoute (addRoute ([] : List (String × RouteEntry Unit)) "/user/" () ())
        "/user/") ((routeOf "/user/").string)
      = some ⟨(routeOf "/user/").string, (routeOf "/user/").segments, (), ()⟩ :=
  ⟨by decide, add_remove_key_mismatch [] "/user/" () () (by decide)⟩

/-! ### Ranking claims -/

/-- C7: at every index `i` scanned by the ranking loop (of both `rank`
variants in `src/Router.ts`), an exact string-equal segment contributes 3 and
scanning continues; a segment beginning with `:` contributes 2 and scanning
continues, whether or not a request segment is present at index `i`; and when
no branch applies the match fails and the loop returns 0 immediately,
discarding the partial score accumulated so far. -/
theorem rank_step_behavior (user : List String) (rc : String) (rest : List String)
    (i s : Nat) :
    (user[i]? = some rc →
        Hopper.rankGo user (rc :: rest) i s = Hopper.rankGo user rest (i + 1) (s + 3) ∧
        Proto.rankGo user (rc :: rest) i s = Proto.rankGo user rest (i + 1) (s + 3)) ∧
    (user[i]? ≠ some rc → rc.data.head? = some ':' →
        Hopper.rankGo user (rc :: rest) i s = Hopper.rankGo user rest (i + 1) (s + 2) ∧
        Proto.rankGo user (rc :: rest) i s = Proto.rankGo user rest (i + 1) (s + 2)) ∧
    (user[i]? ≠ some rc → rc.data.head? ≠ some ':' → rc ≠ "*" →
        Hopper.rankGo user (rc :: rest) i s = 0 ∧
        Proto.rankGo user (rc :: rest) i s = 0) := by
  refine ⟨fun h => ?_, fun h hcolon => ?_, fun h hcolon hstar => ?_⟩
  · constructor <;> simp [Hopper.rankGo, Proto.rankGo, h]
  · have hne : rc ≠ "" := by
      intro he
      subst he
      exact absurd hcolon (by decide)
    constructor <;> simp [Hopper.rankGo, Proto.rankGo, h, hcolon, hne]
  · constructor <;> simp [Hopper.rankGo, Proto.rankGo, h, hcolon, hstar]

/-- Witness for C7: the parameter segment `:id` contributes 2 against the
request segment `u`, in both rank variants. -/
theorem rank_step_behavior_witness :
    Hopper.rankGo ["u"] [":id"] 0 0 = Hopper.rankGo ["u"] [] 1 (0 + 2) ∧
    Proto.rankGo ["u"] [":id"] 0 0 = Proto.rankGo ["u"] [] 1 (0 + 2) :=
  (rank_step_behavior ["u"] ":id" [] 0 0).2.1 (by decide) (by decide)

/-- C1, counterexample: for the pattern `["a", "*"]` against the request
`["a", "b", "c"]` the claim predicts `3 + 1 × (length(U) - i)` with `i = 1`,
that is 5, but the main router's `#rank` returns 4. -/
theorem rank_trailing_wildcard_cex :
    Hopper.rank ["a", "*"] ["a", "b", "c"] = 4 ∧
    Hopper.rank ["a", "*"] ["a", "b", "c"] ≠ 3 + ((["a", "b", "c"] : List String).length - 1) := by
  decide

/-- C1, amended: when the scan of the ranking loop reaches a trailing `*`
(last pattern index `i`, any score `s` accumulated by the earlier matching
segments), then: a missing or empty request segment at `i` makes every rank
variant return 0; a request segment equal to the literal `*` is consumed by
the exact-match branch instead (adds 3); and otherwise `#rank` of the main
router and `rank` of part_000 add `1 × (length(U) - 1 - i)` while the
prototype `rank` (`src/Router.ts` lines 56-97) adds `1 × (length(U) - i)`. -/
theorem rank_trailing_wildcard_thm (user : List String) (i s : Nat) :
    ((user[i]? = none ∨ user[i]? = some "") →
        Hopper.rankGo user ["*"] i s = 0 ∧
        Legacy.rankGo user ["*"] i s = 0 ∧
        Proto.rankGo user ["*"] i s = 0) ∧
    (user[i]? = some "*" →
        Hopper.rankGo user ["*"] i s = s + 3 ∧
        Legacy.rankGo user ["*"] i s = s + 3 ∧
        Proto.rankGo user ["*"] i s = s + 3) ∧
    (∀ u, user[i]? = some u → u ≠ "" → u ≠ "*" →
        Hopper.rankGo user ["*"] i s = s + (user.length - 1 - i) ∧
        Legacy.rankGo user ["*"] i s = s + (user.length - 1 - i) ∧
        Proto.rankGo user ["*"] i s = s + (user.length - i)) := by
  refine ⟨fun h => ?_, fun h => ?_, fun u h hne hstar => ?_⟩
  · rcases h with h | h <;>
      refine ⟨?_, ?_, ?_⟩ <;>
      simp [Hopper.rankGo, Legacy.rankGo, Proto.rankGo, h]
  · refine ⟨?_, ?_, ?_⟩ <;>
      simp [Hopper.rankGo, Legacy.rankGo, Proto.rankGo, h]
  · refine ⟨?_, ?_, ?_⟩ <;>
      simp [Hopper.rankGo, Legacy.rankGo, Proto.rankGo, h, hne, hstar]

/-- Witness for C1 (amended) at request `["a", "b", "c"]`, trailing index 1,
accumulated score 3: the main and part_000 variants yield `3 + (3 - 1 - 1)`,
the prototype yields `3 + (3 - 1)`. -/
theorem rank_trailing_wildcard_thm_witness :
    (["a", "b", "c"] : List String)[1]? = some "b" ∧
    (Hopper.rankGo ["a", "b", "c"] ["*"] 1 3 = 3 + ((["a", "b", "c"] : List String).length - 1 - 1) ∧
     Legacy.rankGo ["a", "b", "c"] ["*"] 1 3 = 3 + ((["a", "b", "c"] : List String).length - 1 - 1) ∧
     Proto.rankGo ["a", "b", "c"] ["*"] 1 3 = 3 + ((["a", "b", "c"] : List String).length - 1)) :=
  ⟨by decide, (rank_trailing_wildcard_thm ["a", "b", "c"] 1 3).2.2 "b" (by decide)
    (by decide) (by decide)⟩

/-- C2: in the main router's `#rank` (`src/Router.ts` lines 334-339) the
non-trailing wildcard branch increments the score but then falls through to
`return 0` — the `continue` present in both other variants is missing — so a
non-trailing `*` whose request segment is neither an exact match nor a
parameter rejects the whole match instead of adding 1 and continuing.  At the
failing input, pattern `["*", "a"]` against request `["b", "a"]`, the claimed
behavior (implemented by the prototype `rank` and the part_000 `rank`) yields
`1 + 3 = 4`, but `#rank` returns 0. -/
theorem rank_wildcard_fallthrough_eval :
    Hopper.rank ["*", "a"] ["b", "a"] = 0 ∧
    Proto.rank ["*", "a"] ["b", "a"] = 4 ∧
    Legacy.rank ["*", "a"] ["b", "a"] = 4 := by
  decide

/-! ### Binder claim -/

theorem detailsGo_eq_bindSpec (user : List String) :
    ∀ (route : List String) (i : Nat) (ps : List (String × Option String))
      (ws : List (Option String)),
      detailsGo user route i ps ws =
        ⟨(bindSpec user route i).1.foldl (fun m p => objSet m p.1 p.2) ps,
         ws ++ (bindSpec user route i).2⟩ := by
  intro route
  induction route with
  | nil => intro i ps ws; simp [detailsGo, bindSpec]
  | cons rc rest ih =>
    intro i ps ws
    by_cases h1 : rc ≠ "" ∧ rc.data.head? = some ':'
    · simp [detailsGo, bindSpec, h1, ih]
    · by_cases h2 : rest = [] ∧ rc = "*"
      · obtain ⟨hrest, hrc⟩ := h2
        subst hrest hrc
        simp [detailsGo, bindSpec, h1]
      · by_cases h3 : rc = "*"
        · have hrest : rest ≠ [] := fun hr => h2 ⟨hr, h3⟩
          simp [detailsGo, bindSpec, h1, h3, hrest, ih]
        · simp [detailsGo, bindSpec, h1, h2, h3, ih]

/-- C8: `#getUserRouteDetails(route, user)` computes exactly the binding
described by the spec (`bindSpec`): for each pattern index `i`, a parameter
segment `:name` assigns `params[name] = user[i]`, a non-trailing `*` appends
`user[i]` to the wildcards, a trailing `*` at the last index appends every
request segment from `i` to the end and stops, and literal segments
contribute nothing.  The parameter assignments are applied to the record in
scan order (a later duplicate name overwrites the value). -/
theorem getUserRouteDetails_eq_bindSpec (route user : List String) :
    getUserRouteDetails route user =
      ⟨(bindSpec user route 0).1.foldl (fun m p => objSet m p.1 p.2) [],
       (bindSpec user route 0).2⟩ := by
  simpa using detailsGo_eq_bindSpec user route 0 [] []

/-! ### Normalization claim -/

theorem removeFirstHash_eq_self {l : List Char} (h : '#' ∉ l) :
    removeFirstHash l = l := by
  induction l with
  | nil => rfl
  | cons c rest ih =>
    have hc : c ≠ '#' := fun hh => h (hh ▸ List.mem_cons_self c rest)
    simp only [removeFirstHash, if_neg hc]
    rw [ih (fun hm => h (List.mem_cons_of_mem c hm))]

theorem splitOnChar_of_not_mem {sep : Char} {l : List Char} (h : sep ∉ l) :
    splitOnChar sep l = [l] := by
  induction l with
  | nil => rfl
  | cons c rest ih =>
    have hc : c ≠ sep := fun hh => h (hh ▸ List.mem_cons_self c rest)
    simp only [splitOnChar, if_neg hc]
    rw [ih (fun hm => h (List.mem_cons_of_mem c hm))]
    rfl

theorem not_mem_headD_splitOnChar (sep : Char) (l : List Char) :
    sep ∉ (splitOnChar sep l).headD [] := by
  induction l with
  | nil => simp [splitOnChar]
  | cons c rest ih =>
    by_cases hc : c = sep
    · simp [splitOnChar, hc]
    · simp only [splitOnChar, if_neg hc]
      cases hr : splitOnChar sep rest with
      | nil => simpa [consHead] using Ne.symm hc
      | cons p more =>
        rw [hr] at ih
        simp only [consHead, List.headD_cons]
        simp only [List.headD_cons] at ih
        intro hmem
        rcases List.mem_cons.mp hmem with h1 | h1
        · exact hc h1.symm
        · exact ih h1

/-- The `Router.Route` constructor is the identity on an already normalized
path: a string with no `#`, no leading or trailing `/`, and no `?` passes
through unchanged, splits into its `/`-segments, and yields no queries. -/
theorem routeOf_normalized (l : List Char)
    (h1 : '#' ∉ l) (h2 : l.head? ≠ some '/') (h3 : l.getLast? ≠ some '/')
    (h4 : '?' ∉ l) :
    routeOf (String.mk l) = ⟨String.mk l, (splitOnChar '/' l).map String.mk, []⟩ := by
  unfold routeOf
  rw [show (String.mk l).data = l from rfl, removeFirstHash_eq_self h1]
  dsimp only
  rw [if_neg h2, if_neg h3, splitOnChar_of_not_mem h4]
  rfl

theorem routeOf_string_no_query (hash : String) :
    '?' ∉ (routeOf hash).string.data := by
  unfold routeOf
  dsimp only
  exact not_mem_headD_splitOnChar '?' _

theorem routeOf_segments_eq (hash : String) :
    (routeOf hash).segments
      = (splitOnChar '/' (routeOf hash).string.data).map String.mk := rfl

/-- C9, counterexample: normalization is not idempotent on every raw
fragment: `"//a"` normalizes to the path `"/a"` (only one leading slash is
stripped), and normalizing that output again gives `"a"`. -/
theorem routeOf_idem_cex :
    (routeOf ((routeOf "//a").string)).string ≠ (routeOf "//a").string := by
  decide

/-- C9, amended: re-normalizing the normalized path is the identity on the
path string and the segment sequence provided the first pass's path output
contains no `#` and neither starts nor ends with `/` (the constructor strips
only one marker, one leading slash and one trailing slash, so outputs that
retain such characters shrink again); the second pass's query mapping is
always empty, since the query substring was split off by the first pass (so
it equals the first pass's mapping only when that was empty). -/
theorem routeOf_idem (h : String)
    (h1 : '#' ∉ (routeOf h).string.data)
    (h2 : (routeOf h).string.data.head? ≠ some '/')
    (h3 : (routeOf h).string.data.getLast? ≠ some '/') :
    routeOf ((routeOf h).string)
      = ⟨(routeOf h).string, (routeOf h).segments, []⟩ := by
  have h4 := routeOf_string_no_query h
  have hnorm := routeOf_normalized ((routeOf h).string.data) h1 h2 h3 h4
  rw [show String.mk ((routeOf h).string.data) = (routeOf h).string from rfl] at hnorm
  rw [hnorm, ← routeOf_segments_eq h]

/-- Witness for C9 (amended) at the raw fragment `"#/user/42?x=1"`, whose
first-pass path is `"user/42"`. -/
theorem routeOf_idem_witness :
    ('#' ∉ (routeOf "#/user/42?x=1").string.data ∧
     (routeOf "#/user/42?x=1").string.data.head? ≠ some '/' ∧
     (routeOf "#/user/42?x=1").string.data.getLast? ≠ some '/') ∧
    routeOf ((routeOf "#/user/42?x=1").string)
      = ⟨(routeOf "#/user/42?x=1").string, (routeOf "#/user/42?x=1").segments, []⟩ :=
  ⟨⟨by decide, by decide, by decide⟩,
    routeOf_idem "#/user/42?x=1" (by decide) (by decide) (by decide)⟩

/-! ### Matcher claim -/

theorem le_foldlMax (l : List Nat) : ∀ a : Nat, a ≤ l.foldl Nat.max a := by
  induction l with
  | nil => intro a; exact Nat.le_refl a
  | cons x rest ih =>
    intro a
    exact Nat.le_trans (Nat.le_max_left a x) (ih (Nat.max a x))

theorem mem_le_foldlMax {x : Nat} : ∀ (l : List Nat), x ∈ l → ∀ a : Nat,
    x ≤ l.foldl Nat.max a := by
  intro l
  induction l with
  | nil => intro h; exact absurd h (List.not_mem_nil x)
  | cons y rest ih =>
    intro h a
    rcases List.mem_cons.mp h with h1 | h1
    · subst h1
      exact Nat.le_trans (Nat.le_max_right a x) (le_foldlMax rest (Nat.max a x))
    · exact ih h1 (Nat.max a y)

theorem bestGo_stay : ∀ (l : List (Nat × String)) (acc : Nat × String),
    (∀ q ∈ l, q.1 ≤ acc.1) → bestGo l acc = acc := by
  intro l
  induction l with
  | nil => intro acc _; rfl
  | cons q rest ih =>
    intro acc h
    have hq : ¬acc.1 < q.1 := Nat.not_lt.mpr (h q (List.mem_cons_self q rest))
    simp only [bestGo, if_neg hq]
    exact ih acc (fun p hp => h p (List.mem_cons_of_mem q hp))

theorem bestGo_find : ∀ (l : List (Nat × String)) (acc : Nat × String),
    acc.1 < (l.map Prod.fst).foldl Nat.max acc.1 →
    l.find? (fun q => q.1 == (l.map Prod.fst).foldl Nat.max acc.1)
      = some (bestGo l acc) := by
  intro l
  induction l with
  | nil => intro acc h; exact absurd h (Nat.lt_irrefl acc.1)
  | cons q rest ih =>
    intro acc h
    have hMdef : ((q :: rest).map Prod.fst).foldl Nat.max acc.1
        = (rest.map Prod.fst).foldl Nat.max (Nat.max acc.1 q.1) := rfl
    by_cases hq : q.1 = ((q :: rest).map Prod.fst).foldl Nat.max acc.1
    · have hacc : acc.1 < q.1 := hq ▸ h
      have hrest : ∀ p ∈ rest, p.1 ≤ q.1 := by
        intro p hp
        rw [hq, hMdef]
        exact mem_le_foldlMax (rest.map Prod.fst) (List.mem_map_of_mem Prod.fst hp) _
      rw [List.find?_cons_of_pos _ (by simp only [beq_iff_eq]; exact hq)]
      simp only [bestGo, if_pos hacc]
      rw [bestGo_stay rest q hrest]
    · have hqle : q.1 ≤ ((q :: rest).map Prod.fst).foldl Nat.max acc.1 := by
        rw [hMdef]
        exact Nat.le_trans (Nat.le_max_right acc.1 q.1)
          (le_foldlMax (rest.map Prod.fst) _)
      have hqlt : q.1 < ((q :: rest).map Prod.fst).foldl Nat.max acc.1 :=
        Nat.lt_of_le_of_ne hqle hq
      rw [List.find?_cons_of_neg _ (by simp only [beq_iff_eq]; exact hq)]
      simp only [bestGo]
      by_cases hlt : acc.1 < q.1
      · rw [if_pos hlt]
        have hmax : Nat.max acc.1 q.1 = q.1 := Nat.max_eq_right (Nat.le_of_lt hlt)
        have h' : q.1 < (rest.map Prod.fst).foldl Nat.max q.1 := by
          have := hqlt
          rw [hMdef, hmax] at this
          exact this
        have := ih q h'
        rw [hMdef, hmax]
        exact this
      · rw [if_neg hlt]
        have hmax : Nat.max acc.1 q.1 = acc.1 :=
          Nat.max_eq_left (Nat.not_lt.mp hlt)
        have h' : acc.1 < (rest.map Prod.fst).foldl Nat.max acc.1 := by
          have := h
          rw [hMdef, hmax] at this
          exact this
        have := ih acc h'
        rw [hMdef, hmax]
        exact this

theorem chooseBestGo_eq_bestGo {α : Type} (user : List String) :
    ∀ (l : List (String × RouteEntry α)) (acc : Nat × String),
      chooseBestGo user l acc
        = bestGo (l.map (fun p => (Hopper.rank p.2.segments user, p.1))) acc := by
  intro l
  induction l with
  | nil => intro acc; rfl
  | cons p rest ih =>
    intro acc
    cases p with
    | mk k e => simp only [chooseBestGo, bestGo, List.map_cons, ih]

theorem bestGo_spec_eq (scored : List (Nat × String)) :
    (if (bestGo scored (0, "")).1 ≠ 0 then some (bestGo scored (0, "")).2 else none)
      = (if (scored.map Prod.fst).foldl Nat.max 0 = 0 then none
         else (scored.find?
            (fun q => q.1 == (scored.map Prod.fst).foldl Nat.max 0)).map Prod.snd) := by
  by_cases hM : (scored.map Prod.fst).foldl Nat.max 0 = 0
  · have hall : ∀ q ∈ scored, q.1 ≤ (0 : Nat) := by
      intro q hq
      have := mem_le_foldlMax (scored.map Prod.fst) (List.mem_map_of_mem Prod.fst hq) 0
      rw [hM] at this
      exact this
    rw [bestGo_stay scored (0, "") hall]
    simp [hM]
  · have h0 : (0 : Nat) < (scored.map Prod.fst).foldl Nat.max 0 :=
      Nat.pos_of_ne_zero hM
    have hfind := bestGo_find scored (0, "") h0
    have hb1 : (bestGo scored (0, "")).1 = (scored.map Prod.fst).foldl Nat.max 0 := by
      have hs := List.find?_some hfind
      simpa only [beq_iff_eq] using hs
    have hne : (bestGo scored (0, "")).1 ≠ 0 := by
      rw [hb1]
      exact hM
    rw [if_neg hM, hfind, Option.map_some', if_pos hne]

/-- C4, counterexample: registering `"*"` first and then `"404"` and
requesting `["404", "a", "b", "c"]` scores both entries 3, but `#chooseBest`
does not scan in insertion order: `for ... in` enumerates the array-index
key `"404"` before `"*"`, so the tie resolves to `"404"` instead of the
earliest-registered `"*"` demanded by the claim (`chooseSpec`). -/
theorem chooseBest_insertion_cex :
    chooseBest
        [("*", (⟨"*", ["*"], (), ()⟩ : RouteEntry Unit)),
         ("404", ⟨"404", ["404"], (), ()⟩)]
        ["404", "a", "b", "c"] = some "404" ∧
    chooseSpec
        [("*", (⟨"*", ["*"], (), ()⟩ : RouteEntry Unit)),
         ("404", ⟨"404", ["404"], (), ()⟩)]
        ["404", "a", "b", "c"] = some "*" := by
  decide

/-- C4, amended: `#chooseBest` scans the registry in JavaScript own-property
enumeration order — canonical array-index keys (all-digit strings such as
`"404"`) first in ascending numeric order, then the remaining keys in
insertion order — keeping the entry with the strictly greatest rank seen so
far (a tie keeps the earliest-enumerated entry) and returning the winning key
iff its score is positive.  When no registered key is an array-index string,
the enumeration order is the insertion order and the claim holds as stated:
the scan equals the spec's matcher (`chooseSpec`: the earliest-registered
entry attaining the maximal score, returned only when that score is
positive). -/
theorem chooseBest_matches_spec {α : Type} (routes : List (String × RouteEntry α))
    (user : List String) (hk : ∀ p ∈ routes, isArrayIndexKey p.1 = false) :
    chooseBest routes user = chooseSpec routes user := by
  have hfil1 : routes.filter (fun p => isArrayIndexKey p.1) = [] := by
    rw [List.filter_eq_nil_iff]
    intro p hp
    simp [hk p hp]
  have hfil2 : routes.filter (fun p => !isArrayIndexKey p.1) = routes := by
    rw [List.filter_eq_self]
    intro p hp
    simp [hk p hp]
  have he : enumOrder routes = routes := by
    unfold enumOrder
    rw [hfil1, hfil2]
    rfl
  unfold chooseBest chooseSpec
  dsimp only
  rw [he, chooseBestGo_eq_bestGo]
  exact bestGo_spec_eq (routes.map (fun p => (Hopper.rank p.2.segments user, p.1)))

/-- Witness for C4 (amended): two parameter routes (keys are not array
indices) tie at rank 2 against `["z"]`; both the code and the spec matcher
pick `":a"`, the earliest-registered one. -/
theorem chooseBest_matches_spec_witness :
    chooseBest
        [(":a", (⟨":a", [":a"], (), ()⟩ : RouteEntry Unit)),
         (":b", ⟨":b", [":b"], (), ()⟩)] ["z"]
      = chooseSpec
        [(":a", (⟨":a", [":a"], (), ()⟩ : RouteEntry Unit)),
         (":b", ⟨":b", [":b"], (), ()⟩)] ["z"] ∧
    chooseBest
        [(":a", (⟨":a", [":a"], (), ()⟩ : RouteEntry Unit)),
         (":b", ⟨":b", [":b"], (), ()⟩)] ["z"] = some ":a" :=
  ⟨chooseBest_matches_spec _ _ (by decide), by decide⟩

/-! ### Navigation state machine claims -/

theorem enterStage_calls_shape {α : Type} (routes : List (String × RouteEntry α))
    (mr : Option String) (mtch : Option (RouteEntry α))
    (ec : List (String × Phase × RouteChangeEvent)) (ev : RouteChangeEvent)
    (run : String → Phase → Bool) :
    ∃ l, (enterStage routes mr mtch ec ev run).calls = ec ++ l ∧
      ∀ x ∈ l, x.2.1 = Phase.afterEnter ∧ x.2.2 = ev := by
  cases mtch with
  | some m =>
      refine ⟨[(keyOf mr, Phase.afterEnter, ev)], rfl, ?_⟩
      intro x hx
      rcases List.mem_singleton.mp hx with rfl
      exact ⟨rfl, rfl⟩
  | none =>
      cases h404 : objGet routes "404" with
      | some e4 =>
          refine ⟨[("404", Phase.afterEnter, ev)], ?_, ?_⟩
          · simp [enterStage, h404]
          · intro x hx
            rcases List.mem_singleton.mp hx with rfl
            exact ⟨rfl, rfl⟩
      | none =>
          refine ⟨[], ?_, ?_⟩
          · simp [enterStage, h404]
          · intro x hx
            exact absurd hx (List.not_mem_nil x)

/-- C6: within one transition whose previous route key `c` has a registry
entry, and which is not the initial load (`noLeave = false`), the first
handler invocation is the exit handler of `c` with the transition's event,
and every later invocation is an enter-phase invocation with the same event —
the `await` sequencing of the source means the exit handler has run to
completion (or rejected, aborting the transition) before any enter handler
starts.  On the initial load (`noLeave = true`, as passed by `load()` and
`startListening()`) no exit handler is invoked at all. -/
theorem exit_runs_before_enter {α : Type} (routes : List (String × RouteEntry α))
    (hash : String) (run : String → Phase → Bool) (c : String) (e : RouteEntry α)
    (he : objGet routes c = some e) :
    (∃ ev rest,
      (handleHashChange routes (some c) hash false run).calls
        = (c, Phase.beforeExit, ev) :: rest ∧
      ∀ x ∈ rest, x.2.1 = Phase.afterEnter ∧ x.2.2 = ev) ∧
    ∀ (current : Option String) (x : String × Phase × RouteChangeEvent),
      x ∈ (handleHashChange routes current hash true run).calls →
        x.2.1 = Phase.afterEnter := by
  constructor
  · unfold handleHashChange
    dsimp only [keyOf]
    rw [he]
    simp only [Option.isSome_some, Bool.not_false, Bool.and_true, Bool.true_and]
    by_cases hr : run c Phase.beforeExit
    · rw [hr]
      simp only [Bool.not_true, Bool.and_false, Bool.false_eq_true, if_false, if_true,
        Bool.and_self, reduceIte]
      obtain ⟨l, hl, hall⟩ := enterStage_calls_shape routes _ _ _ _ run
      refine ⟨_, l, ?_, hall⟩
      rw [hl]
      rfl
    · rw [Bool.not_eq_true] at hr
      rw [hr]
      simp only [Bool.not_false, Bool.and_true, if_true, reduceIte]
      exact ⟨_, [], rfl, fun x hx => absurd hx (List.not_mem_nil x)⟩
  · intro current x
    unfold handleHashChange
    dsimp only
    simp only [Bool.not_true, Bool.and_false, Bool.false_and, Bool.false_eq_true, if_false,
      reduceIte]
    obtain ⟨l, hl, hall⟩ := enterStage_calls_shape routes _ _ [] _ run
    rw [hl]
    intro hx
    exact (hall x (by simpa using hx)).1

/-- Witness for C6: previous route `"a"` with an entry, navigating to an
unmatched hash; the single recorded call is the exit of `"a"`. -/
theorem exit_runs_before_enter_witness :
    (∃ ev rest,
      (handleHashChange [("a", (⟨"a", ["a"], (), ()⟩ : RouteEntry Unit))]
          (some "a") "#/b" false (fun _ _ => true)).calls
        = ("a", Phase.beforeExit, ev) :: rest ∧
      ∀ x ∈ rest, x.2.1 = Phase.afterEnter ∧ x.2.2 = ev) ∧
    ∀ (current : Option String) (x : String × Phase × RouteChangeEvent),
      x ∈ (handleHashChange [("a", (⟨"a", ["a"], (), ()⟩ : RouteEntry Unit))]
          current "#/b" true (fun _ _ => true)).calls →
        x.2.1 = Phase.afterEnter :=
  exit_runs_before_enter [("a", ⟨"a", ["a"], (), ()⟩)] "#/b" (fun _ _ => true)
    "a" ⟨"a", ["a"], (), ()⟩ (by decide)

/-- C5, counterexample: with an empty registry (so no fallback entry is
registered) and no winning key, the machine does not commit to `Idle`
(`#currentRoute = undefined`): `#handleHashChange` unconditionally executes
`this.#currentRoute = '404'` in its no-match branch. -/
theorem noMatch_idle_cex :
    (handleHashChange ([] : List (String × RouteEntry Unit)) none "#/x" true
      (fun _ _ => true)).committed = some (some "404") ∧
    (handleHashChange ([] : List (String × RouteEntry Unit)) none "#/x" true
      (fun _ _ => true)).committed ≠ some none := by
  decide

/-- C5, amended: in a transition where the Matcher finds no winning key
(and no entry is registered under the literal key `"undefined"`, which the
lookup `this.#routes[matchingRoute!]` would otherwise find, and the exit
phase does not reject): if an entry is registered under the key `"404"`, its
enter handler is invoked with the event as the last call, and on its success
the machine commits `#currentRoute = '404'`; if no such entry exists, no
enter handler is invoked and the machine still commits
`#currentRoute = '404'`.  The committed state is thus the user-addressable
registry key `'404'` (the very key under which the fallback is registered),
not a distinct `NotFound` state, and the no-fallback case commits `'404'`
rather than `Idle`. -/
theorem noMatch_commits_404 {α : Type} (routes : List (String × RouteEntry α))
    (current : Option String) (hash : String) (noLeave : Bool)
    (run : String → Phase → Bool)
    (hno : chooseBest routes (routeOf hash).segments = none)
    (hu : objGet routes "undefined" = none)
    (hx : objGet routes (keyOf current) = none ∨ noLeave = true ∨
          run (keyOf current) Phase.beforeExit = true) :
    (objGet routes "404" = none →
      (handleHashChange routes current hash noLeave run).committed
        = some (some "404") ∧
      ∀ x ∈ (handleHashChange routes current hash noLeave run).calls,
        x.2.1 = Phase.beforeExit) ∧
    (∀ e404, objGet routes "404" = some e404 →
      (∃ l, (handleHashChange routes current hash noLeave run).calls
          = l ++ [("404", Phase.afterEnter,
              ⟨(routeOf hash).string, [], [], (routeOf hash).queries⟩)]) ∧
      (run "404" Phase.afterEnter = true →
        (handleHashChange routes current hash noLeave run).committed
          = some (some "404"))) := by
  have hred : handleHashChange routes current hash noLeave run
      = enterStage routes none none
          (if (objGet routes (keyOf current)).isSome && !noLeave
           then [(keyOf current, Phase.beforeExit,
              ⟨(routeOf hash).string, [], [], (routeOf hash).queries⟩)]
           else [])
          ⟨(routeOf hash).string, [], [], (routeOf hash).queries⟩ run := by
    unfold handleHashChange
    dsimp only
    rw [hno, show keyOf none = "undefined" from rfl, hu]
    dsimp only [segmentsOf, getUserRouteDetails, detailsGo]
    rcases hx with h | h | h
    · rw [h]
      simp only [Option.isSome_none, Bool.false_and, Bool.false_eq_true, if_false, reduceIte]
    · rw [h]
      simp only [Bool.not_true, Bool.and_false, Bool.false_and, Bool.false_eq_true,
        if_false, reduceIte]
    · rw [h]
      simp only [Bool.not_true, Bool.and_false, Bool.false_eq_true, if_false, reduceIte]
  rw [hred]
  constructor
  · intro h404
    constructor
    · simp only [enterStage, h404]
    · intro x hx'
      simp only [enterStage, h404] at hx'
      by_cases hd : ((objGet routes (keyOf current)).isSome && !noLeave) = true
      · rw [if_pos hd] at hx'
        rcases List.mem_singleton.mp hx' with rfl
        rfl
      · rw [if_neg hd] at hx'
        exact absurd hx' (List.not_mem_nil x)
  · intro e404 h404
    simp only [enterStage, h404]
    exact ⟨⟨_, rfl⟩, fun hr => by rw [hr]; rfl⟩

/-- Witness for C5 (amended): only a `"404"` entry is registered, the hash
`#/zzz` matches nothing; the fallback's enter handler is invoked and `'404'`
is committed. -/
theorem noMatch_commits_404_witness :
    (∃ l, (handleHashChange [("404", (⟨"404", ["404"], (), ()⟩ : RouteEntry Unit))]
        none "#/zzz" false (fun _ _ => true)).calls
      = l ++ [("404", Phase.afterEnter,
          ⟨(routeOf "#/zzz").string, [], [], (routeOf "#/zzz").queries⟩)]) ∧
    ((fun (_ : String) (_ : Phase) => true) "404" Phase.afterEnter = true →
      (handleHashChange [("404", (⟨"404", ["404"], (), ()⟩ : RouteEntry Unit))]
        none "#/zzz" false (fun _ _ => true)).committed = some (some "404")) :=
  (noMatch_commits_404 [("404", ⟨"404", ["404"], (), ()⟩)] none "#/zzz" false
      (fun _ _ => true) (by decide) (by decide) (Or.inl (by decide))).2
    ⟨"404", ["404"], (), ()⟩ (by decide)

/-- C3: `#handleHashChange` contains no try/catch, so a handler that raises
or rejects is not caught at the point of invocation: the rejection
propagates out of the async body.  At the failing input — routes `"a"` and
`"b"` registered, current route `"a"`, navigating to `#/b`, with the exit
handler of `"a"` rejecting — the Matcher does find `"b"`, yet the only
invocation is the exit handler of `"a"`: the enter handler of `"b"` never
runs and no terminal state is committed (`#currentRoute` is left at `"a"`),
contradicting the claimed catch-and-continue behavior. -/
theorem handler_throw_aborts_eval :
    chooseBest
        [("a", (⟨"a", ["a"], (), ()⟩ : RouteEntry Unit)),
         ("b", ⟨"b", ["b"], (), ()⟩)] (routeOf "#/b").segments = some "b" ∧
    (handleHashChange
        [("a", (⟨"a", ["a"], (), ()⟩ : RouteEntry Unit)),
         ("b", ⟨"b", ["b"], (), ()⟩)] (some "a") "#/b" false
        (fun k ph => !(k == "a" && ph == Phase.beforeExit))).calls.map
          (fun x => (x.1, x.2.1)) = [("a", Phase.beforeExit)] ∧
    (handleHashChange
        [("a", (⟨"a", ["a"], (), ()⟩ : RouteEntry Unit)),
         ("b", ⟨"b", ["b"], (), ()⟩)] (some "a") "#/b" false
        (fun k ph => !(k == "a" && ph == Phase.beforeExit))).committed = none := by
  decide
